import Mathlib

/-!
Verification of the double-precision interval arithmetic engine of
`include/kay/dbl-ival.hh` (namespace `kay::dbl`, class `ival`).

Modelling conventions:
* An IEEE-754 binary64 datum is embedded as `Fp`: either NaN, one of the two
  infinities, or a finite value carried as an exact rational.  The two IEEE
  signed zeros are collapsed into the single rational `0`; no observable
  modelled here (comparisons, interval membership, the classifications under
  verification) distinguishes them.
* The engine requires the rounding mode FE_DOWNWARD for all operations
  (see the comment above class `ival`).  A hardware operation on finite
  operands then yields the exact rational result rounded toward negative
  infinity.  The rounding function is kept abstract as a structure `RndDown`
  whose fields state exactly the properties guaranteed by round-toward
  negative-infinity: the result is `-inf` or a finite value at most the exact
  one, and a representable exact result is returned unchanged.  Overflow to
  `-inf` (negative side) or to the largest finite double (positive side) is
  an instance of these fields.
* Operations on non-finite operands follow IEEE-754 exactly (they do not
  round): `inf - inf`, `0 * inf`, `inf / inf` are NaN, etc.
* The conversion `Q::get_d()` delegates to GMP `mpq_get_d` (FLINT
  `fmpq_get_d` behaves the same), whose documented behaviour is truncation
  toward zero; `nextafter` steps to the adjacent representable value.  These
  external collaborators are embedded as a structure `DModel` whose fields
  state their documented behaviour relative to the set `isRepr` of finite
  binary64 values.
-/

namespace Kay

/-- Model of an IEEE-754 binary64 datum: NaN, an infinity, or a finite value
represented by the exact rational it denotes (signed zeros collapsed). -/
inductive Fp where
  | nan : Fp
  | ninf : Fp
  | pinf : Fp
  | fin : ℚ → Fp
deriving DecidableEq

/-- Negation of a double: exact, flips the sign bit (`operator-` on a bound). -/
def fneg : Fp → Fp
  | Fp.nan => Fp.nan
  | Fp.ninf => Fp.pinf
  | Fp.pinf => Fp.ninf
  | Fp.fin q => Fp.fin (-q)

/-- IEEE `<=` on doubles: false whenever either operand is NaN. -/
def fle : Fp → Fp → Bool
  | Fp.nan, _ => false
  | _, Fp.nan => false
  | Fp.ninf, _ => true
  | _, Fp.pinf => true
  | Fp.pinf, _ => false
  | Fp.fin _, Fp.ninf => false
  | Fp.fin a, Fp.fin b => decide (a ≤ b)

/-- IEEE `<` on doubles: false whenever either operand is NaN. -/
def flt : Fp → Fp → Bool
  | Fp.nan, _ => false
  | _, Fp.nan => false
  | Fp.ninf, Fp.ninf => false
  | Fp.ninf, _ => true
  | _, Fp.ninf => false
  | Fp.pinf, Fp.pinf => false
  | Fp.fin _, Fp.pinf => true
  | Fp.pinf, Fp.fin _ => false
  | Fp.fin a, Fp.fin b => decide (a < b)

/-- IEEE `==` on doubles: false whenever either operand is NaN. -/
def feq : Fp → Fp → Bool
  | Fp.nan, _ => false
  | _, Fp.nan => false
  | a, b => decide (a = b)

/-- Test for NaN (`std::isnan`). -/
def isnan : Fp → Bool
  | Fp.nan => true
  | _ => false

/-- Test for a finite value (`std::isfinite`). -/
def isfinite : Fp → Bool
  | Fp.fin _ => true
  | _ => false

/-- Test for an infinity (`std::isinf`). -/
def isinf : Fp → Bool
  | Fp.ninf => true
  | Fp.pinf => true
  | _ => false

/-- Finite binary64 values: `m * 2^e` with a significand of magnitude below
`2^53` and exponent range covering subnormals (`2^-1074` ulp) up to
`DBL_MAX = (2^53 - 1) * 2^971`. -/
def isRepr (q : ℚ) : Prop :=
  ∃ m e : ℤ, |m| < 2 ^ 53 ∧ -1074 ≤ e ∧ e ≤ 971 ∧ q = (m : ℚ) * (2 : ℚ) ^ e

/-- Abstract model of rounding toward negative infinity, the mode the engine
requires (`rounding_mode(FE_DOWNWARD)`).  `rnd q` is the binary64 result of a
hardware operation whose exact value is `q`. -/
structure RndDown where
  rnd : ℚ → Fp
  /-- Rounding toward negative infinity never increases the value and never
  produces NaN or `+inf`: the result is `-inf` (negative overflow) or a
  finite value at most the exact one. -/
  rnd_sound : ∀ q : ℚ, rnd q = Fp.ninf ∨ ∃ p : ℚ, rnd q = Fp.fin p ∧ p ≤ q
  /-- Representable values round to themselves. -/
  rnd_exact : ∀ q : ℚ, isRepr q → rnd q = Fp.fin q

/-- The identity rounding map is an admissible `RndDown` instance (it is the
rounding used on exact inputs); it serves as the witness model. -/
def rndId : RndDown where
  rnd := fun q => Fp.fin q
  rnd_sound := fun q => Or.inr ⟨q, rfl, le_refl q⟩
  rnd_exact := fun _ _ => rfl

/-- Addition of doubles under FE_DOWNWARD: IEEE special cases, and the exact
sum rounded down when both operands are finite. -/
def fadd (M : RndDown) : Fp → Fp → Fp
  | Fp.nan, _ => Fp.nan
  | _, Fp.nan => Fp.nan
  | Fp.ninf, Fp.pinf => Fp.nan
  | Fp.pinf, Fp.ninf => Fp.nan
  | Fp.ninf, _ => Fp.ninf
  | _, Fp.ninf => Fp.ninf
  | Fp.pinf, _ => Fp.pinf
  | _, Fp.pinf => Fp.pinf
  | Fp.fin a, Fp.fin b => M.rnd (a + b)

/-- Subtraction `a - b`, which IEEE defines as `a + (-b)` (negation exact). -/
def fsub (M : RndDown) (a b : Fp) : Fp := fadd M a (fneg b)

/-- Multiplication of doubles under FE_DOWNWARD: IEEE special cases
(`0 * inf = NaN`), and the exact product rounded down when finite. -/
def fmul (M : RndDown) : Fp → Fp → Fp
  | Fp.nan, _ => Fp.nan
  | _, Fp.nan => Fp.nan
  | Fp.ninf, Fp.ninf => Fp.pinf
  | Fp.ninf, Fp.pinf => Fp.ninf
  | Fp.pinf, Fp.ninf => Fp.ninf
  | Fp.pinf, Fp.pinf => Fp.pinf
  | Fp.ninf, Fp.fin q => if q < 0 then Fp.pinf else if 0 < q then Fp.ninf else Fp.nan
  | Fp.fin q, Fp.ninf => if q < 0 then Fp.pinf else if 0 < q then Fp.ninf else Fp.nan
  | Fp.pinf, Fp.fin q => if q < 0 then Fp.ninf else if 0 < q then Fp.pinf else Fp.nan
  | Fp.fin q, Fp.pinf => if q < 0 then Fp.ninf else if 0 < q then Fp.pinf else Fp.nan
  | Fp.fin a, Fp.fin b => M.rnd (a * b)

/-- Division of doubles under FE_DOWNWARD: IEEE special cases (`inf / inf`
and `0 / 0` are NaN, division by zero gives a signed infinity — with
collapsed zeros the `+0` convention is used; the source only divides by a
component it has tested against zero, so those cases are unreachable there),
and the exact quotient rounded down when finite. -/
def fdiv (M : RndDown) : Fp → Fp → Fp
  | Fp.nan, _ => Fp.nan
  | _, Fp.nan => Fp.nan
  | Fp.ninf, Fp.ninf => Fp.nan
  | Fp.ninf, Fp.pinf => Fp.nan
  | Fp.pinf, Fp.ninf => Fp.nan
  | Fp.pinf, Fp.pinf => Fp.nan
  | Fp.ninf, Fp.fin q => if q < 0 then Fp.pinf else Fp.ninf
  | Fp.pinf, Fp.fin q => if q < 0 then Fp.ninf else Fp.pinf
  | Fp.fin _, Fp.ninf => Fp.fin 0
  | Fp.fin _, Fp.pinf => Fp.fin 0
  | Fp.fin a, Fp.fin b =>
      if b = 0 then (if a = 0 then Fp.nan else if a < 0 then Fp.ninf else Fp.pinf)
      else M.rnd (a / b)

/-- Model of `std::min` on doubles: `(b < a) ? b : a` (second operand only
when the comparison holds, mirroring NaN behaviour). -/
def fmin (a b : Fp) : Fp := if flt b a then b else a

/-- Three-way comparison `cmp(double, double)`:
`a < b ? -1 : a > b ? +1 : 0` (0 on unordered operands). -/
def cmp (a b : Fp) : ℤ := if flt a b then -1 else if flt b a then 1 else 0

/-- Class `ival`: the dual-sign storage, lower bound `lo_pos` kept directly
and upper bound kept negated in `hi_neg`. -/
structure ival where
  lo_pos : Fp
  hi_neg : Fp
deriving DecidableEq

/-- Accessor `lo(v)`, the lower bound. -/
def lo (v : ival) : Fp := v.lo_pos

/-- Accessor `hi(v)`, the upper bound `-hi_neg`. -/
def hi (v : ival) : Fp := fneg v.hi_neg

/-- Predicate `isempty(v)`: `lo(v) > hi(v)`. -/
def isempty (v : ival) : Bool := flt (hi v) (lo v)

/-- Predicate `isNaI(v)`: either stored field is NaN. -/
def isNaI (v : ival) : Bool := isnan v.lo_pos || isnan v.hi_neg

/-- Predicate `ispoint(v)`: `isfinite(lo(v)) && lo(v) == hi(v)`. -/
def ispoint (v : ival) : Bool := isfinite (lo v) && feq (lo v) (hi v)

/-- Predicate `isentire(v)`: `!isfinite(lo(v)) && lo_pos == hi_neg`. -/
def isentire (v : ival) : Bool := !isfinite (lo v) && feq v.lo_pos v.hi_neg

/-- Predicate `isbounded(v)`: both bounds finite. -/
def isbounded (v : ival) : Bool := isfinite (lo v) && isfinite (hi v)

/-- Member `v.contains(d)`: `lo(v) <= d && d <= hi(v)`. -/
def contains (v : ival) (d : Fp) : Bool := fle (lo v) d && fle d (hi v)

/-- Expression of the private constructor's assertion
`assert(lo_pos <= -hi_neg)`; false means the assertion fires. -/
def assert_inv (v : ival) : Bool := fle v.lo_pos (fneg v.hi_neg)

/-- Unary `operator-`: swap the two stored fields, no arithmetic. -/
def ival_neg (a : ival) : ival := ⟨a.hi_neg, a.lo_pos⟩

/-- Binary `operator+` (via `operator+=`): field-wise addition of the
dual-sign representations. -/
def ival_add (M : RndDown) (a b : ival) : ival :=
  ⟨fadd M a.lo_pos b.lo_pos, fadd M a.hi_neg b.hi_neg⟩

/-- Scalar multiplication `operator*(const L &a, const ival &b)`:
if `a >= 0` scale both fields by `a`, else scale by `-a` with the fields
swapped. -/
def scalar_mul (M : RndDown) (a : Fp) (b : ival) : ival :=
  if fle (Fp.fin 0) a then
    ⟨fmul M a b.lo_pos, fmul M a b.hi_neg⟩
  else
    ⟨fmul M (fneg a) b.hi_neg, fmul M (fneg a) b.lo_pos⟩

/-- Interval multiplication `operator*(const ival &, const ival &)`:
five sign cases, general case via componentwise `std::min` of two
cross-products per bound. -/
def ival_mul (M : RndDown) (a b : ival) : ival :=
  if fle (Fp.fin 0) (lo a) && fle (Fp.fin 0) (lo b) then
    ⟨fmul M a.lo_pos b.lo_pos, fmul M (fneg a.hi_neg) b.hi_neg⟩
  else if fle (hi a) (Fp.fin 0) && fle (hi b) (Fp.fin 0) then
    ⟨fmul M a.hi_neg b.hi_neg, fmul M (fneg a.lo_pos) b.lo_pos⟩
  else if fle (hi a) (Fp.fin 0) && fle (Fp.fin 0) (lo b) then
    ⟨fmul M a.lo_pos (fneg b.hi_neg), fmul M a.hi_neg b.lo_pos⟩
  else if fle (Fp.fin 0) (lo a) && fle (hi b) (Fp.fin 0) then
    ⟨fmul M (fneg a.hi_neg) b.lo_pos, fmul M a.lo_pos b.hi_neg⟩
  else
    ⟨fmin (fmul M (fneg a.hi_neg) b.lo_pos) (fmul M a.lo_pos (fneg b.hi_neg)),
     fmin (fmul M (fneg a.hi_neg) b.hi_neg) (fmul M a.lo_pos (fneg b.lo_pos))⟩

/-- Interval division `operator/(const ival &, const ival &)`: the two
sign-definite divisor branches, and the entire interval
`{ -INFINITY, -INFINITY }` when the divisor contains zero. -/
def ival_div (M : RndDown) (a b : ival) : ival :=
  if flt (Fp.fin 0) b.lo_pos then
    if flt (Fp.fin 0) a.lo_pos then
      ⟨fdiv M a.lo_pos (fneg b.hi_neg), fdiv M a.hi_neg b.lo_pos⟩
    else if flt (Fp.fin 0) a.hi_neg then
      ⟨fdiv M a.lo_pos b.lo_pos, fdiv M a.hi_neg (fneg b.hi_neg)⟩
    else
      ⟨fdiv M a.lo_pos b.lo_pos, fdiv M a.hi_neg b.lo_pos⟩
  else if flt (Fp.fin 0) b.hi_neg then
    if flt (Fp.fin 0) a.lo_pos then
      ⟨fdiv M a.hi_neg b.hi_neg, fdiv M (fneg a.lo_pos) b.lo_pos⟩
    else if flt (Fp.fin 0) a.hi_neg then
      ⟨fdiv M (fneg a.hi_neg) b.lo_pos, fdiv M a.lo_pos b.hi_neg⟩
    else
      ⟨fdiv M a.hi_neg b.hi_neg, fdiv M a.lo_pos b.hi_neg⟩
  else
    ⟨Fp.ninf, Fp.ninf⟩

/-- Constant `DBL_MIN`, the smallest positive normal double, `2^-1022`. -/
def dblMin : ℚ := 1 / 2 ^ 1022

/-- Constant `DBL_MAX`, the largest finite double, `(2^53 - 1) * 2^971`. -/
def dblMax : ℚ := (2 ^ 53 - 1) * 2 ^ 971

/-- Function `mid_enc(v)`: `{ (lo_pos - hi_neg)/2, (hi_neg - lo_pos)/2 }`. -/
def mid_enc (M : RndDown) (v : ival) : ival :=
  ⟨fdiv M (fsub M v.lo_pos v.hi_neg) (Fp.fin 2),
   fdiv M (fsub M v.hi_neg v.lo_pos) (Fp.fin 2)⟩

/-- Function `rad_enc(v)`: `{ -(-lo_pos - hi_neg)/2, (hi_neg + lo_pos)/2 }`. -/
def rad_enc (M : RndDown) (v : ival) : ival :=
  ⟨fdiv M (fneg (fsub M (fneg v.lo_pos) v.hi_neg)) (Fp.fin 2),
   fdiv M (fadd M v.hi_neg v.lo_pos) (Fp.fin 2)⟩

/-- Function `wid_enc(v)`: `{ -(-lo_pos - hi_neg), hi_neg + lo_pos }`. -/
def wid_enc (M : RndDown) (v : ival) : ival :=
  ⟨fneg (fsub M (fneg v.lo_pos) v.hi_neg), fadd M v.hi_neg v.lo_pos⟩

/-- Function `mid(v)`: NaN on empty, 0 on entire, `DBL_MIN` when the lower
bound is infinite, `DBL_MAX` when the upper bound is infinite, else
`lo(mid_enc(v))`. -/
def mid (M : RndDown) (v : ival) : Fp :=
  if isempty v then Fp.nan
  else if isentire v then Fp.fin 0
  else if isinf (lo v) then Fp.fin dblMin
  else if isinf (hi v) then Fp.fin dblMax
  else lo (mid_enc M v)

/-- Function `rad(v)`: NaN on empty, `INFINITY` when unbounded, else
`hi(rad_enc(v))`. -/
def rad (M : RndDown) (v : ival) : Fp :=
  if isempty v then Fp.nan
  else if !isbounded v then Fp.pinf
  else hi (rad_enc M v)

/-- Function `wid(v)`: NaN on empty, else `hi(wid_enc(v))`. -/
def wid (M : RndDown) (v : ival) : Fp :=
  if isempty v then Fp.nan else hi (wid_enc M v)

/-- Comparison `cmp(const ival &, const ival &)`: -1 when `hi(a) < lo(b)`,
+1 when `lo(a) > hi(b)`, else 0. -/
def cmp_ival (a b : ival) : ℤ :=
  if flt (hi a) (lo b) then -1
  else if flt (hi b) (lo a) then 1
  else 0

/-- Enumerator values of `enum ieee1788_cmp` (bit flags `1 << k`). -/
def BOTH_EMPTY : ℕ := 1
/-- Enumerator `FIRST_EMPTY` of `ieee1788_cmp`. -/
def FIRST_EMPTY : ℕ := 2
/-- Enumerator `SECOND_EMPTY` of `ieee1788_cmp`. -/
def SECOND_EMPTY : ℕ := 4
/-- Enumerator `BEFORE` of `ieee1788_cmp`. -/
def BEFORE : ℕ := 8
/-- Enumerator `MEETS` of `ieee1788_cmp`. -/
def MEETS : ℕ := 16
/-- Enumerator `OVERLAPS` of `ieee1788_cmp`. -/
def OVERLAPS : ℕ := 32
/-- Enumerator `STARTS` of `ieee1788_cmp`. -/
def STARTS : ℕ := 64
/-- Enumerator `CONTAINED_BY` of `ieee1788_cmp`. -/
def CONTAINED_BY : ℕ := 128
/-- Enumerator `FINISHES` of `ieee1788_cmp`. -/
def FINISHES : ℕ := 256
/-- Enumerator `EQUALS` of `ieee1788_cmp`. -/
def EQUALS : ℕ := 512
/-- Enumerator `FINISHED_BY` of `ieee1788_cmp`. -/
def FINISHED_BY : ℕ := 1024
/-- Enumerator `CONTAINS` of `ieee1788_cmp`. -/
def CONTAINS : ℕ := 2048
/-- Enumerator `STARTED_BY` of `ieee1788_cmp`. -/
def STARTED_BY : ℕ := 4096
/-- Enumerator `OVERLAPPED_BY` of `ieee1788_cmp`. -/
def OVERLAPPED_BY : ℕ := 8192
/-- Enumerator `MET_BY` of `ieee1788_cmp`. -/
def MET_BY : ℕ := 16384
/-- Enumerator `AFTER` of `ieee1788_cmp`. -/
def AFTER : ℕ := 32768

/-- Enumerator `IVAL_LT = BEFORE` of `enum ival_pos`. -/
def IVAL_LT : ℕ := BEFORE
/-- Enumerator `IVAL_LE = MEETS` of `ival_pos`. -/
def IVAL_LE : ℕ := MEETS
/-- Enumerator `IVAL_LO = OVERLAPS` of `ival_pos`. -/
def IVAL_LO : ℕ := OVERLAPS
/-- Enumerator `IVAL_SUB = STARTS | CONTAINED_BY | FINISHES` of `ival_pos`. -/
def IVAL_SUB : ℕ := STARTS ||| CONTAINED_BY ||| FINISHES
/-- Enumerator `IVAL_EQ = EQUALS` of `ival_pos`. -/
def IVAL_EQ : ℕ := EQUALS
/-- Enumerator `IVAL_SUP = FINISHED_BY | CONTAINS | STARTED_BY` of `ival_pos`. -/
def IVAL_SUP : ℕ := FINISHED_BY ||| CONTAINS ||| STARTED_BY
/-- Enumerator `IVAL_GO = OVERLAPPED_BY` of `ival_pos`. -/
def IVAL_GO : ℕ := OVERLAPPED_BY
/-- Enumerator `IVAL_GE = MET_BY` of `ival_pos`. -/
def IVAL_GE : ℕ := MET_BY
/-- Enumerator `IVAL_GT = AFTER` of `ival_pos`. -/
def IVAL_GT : ℕ := AFTER

/-- Classifier `cmp_detailed(a, b)`: decision tree over the four endpoint
comparisons `ll, hl, lh, hh`. -/
def cmp_detailed (a b : ival) : ℕ :=
  let ll := cmp (lo a) (lo b)
  let hl := cmp (hi a) (lo b)
  let lh := cmp (lo a) (hi b)
  let hh := cmp (hi a) (hi b)
  if hl < 0 then IVAL_LT
  else if ll < 0 ∧ hh < 0 then (if hl = 0 then IVAL_LE else IVAL_LO)
  else if 0 < lh then IVAL_GT
  else if 0 < ll ∧ 0 < hh then (if lh = 0 then IVAL_GE else IVAL_GO)
  else if ll = hh then IVAL_EQ
  else if hh < ll then IVAL_SUB
  else IVAL_SUP

/-- Enumerator `NEG = -1` of `enum ival_sgn : int32_t`. -/
def NEG : ℤ := -1
/-- Enumerator `ZERO = 0` of `ival_sgn`. -/
def ZERO : ℤ := 0
/-- Enumerator `POS = 1` of `ival_sgn`. -/
def POS : ℤ := 1
/-- Enumerator `OV_ZERO = INT32_MIN` of `ival_sgn`. -/
def OV_ZERO : ℤ := -(2 ^ 31)

/-- Classifier `sgn(const ival &)`: `POS` when `lo(a) > 0`, `NEG` when
`hi(a) < 0`, `ZERO` when `ispoint(a)`, else `OV_ZERO`. -/
def sgn_ival (a : ival) : ℤ :=
  if flt (Fp.fin 0) (lo a) then POS
  else if flt (hi a) (Fp.fin 0) then NEG
  else if ispoint a then ZERO
  else OV_ZERO

/-- Fuelled halving loop for the odd part of a natural number. -/
def oddPartAux : ℕ → ℕ → ℕ
  | 0, n => n
  | f + 1, n => if n % 2 = 0 then oddPartAux f (n / 2) else n

/-- Odd part of a natural number: divide out all factors of two
(`v >> ctz(v)`); 0 for 0.  The fuel `n` bounds the number of halvings. -/
def oddPart (n : ℕ) : ℕ := oddPartAux n n

/-- Fuelled bit-length loop. -/
def bitsAux : ℕ → ℕ → ℕ
  | 0, _ => 0
  | f + 1, n => if n = 0 then 0 else bitsAux f (n / 2) + 1

/-- Bit length of a natural number (`fmpz_bits` / `mpz_sizeinbase(., 2)` on
the absolute value): 0 for 0, otherwise the index of the highest set bit
plus one. -/
def bitsN (n : ℕ) : ℕ := bitsAux n n

/-- Function `flt_prec` on `kay::Z` (`type_bit_cnt<Z>`): the number of bits
of the odd part, `v ? bits(v) - ctz(v) : 0`, i.e. the minimal significand
width needed to represent `v` exactly. -/
def flt_prec (v : ℤ) : ℕ := bitsN (oddPart v.natAbs)

/-- Sign of a rational as the `int` returned by the collaborator `sgn(Q)`. -/
def sgnQ (v : ℚ) : ℤ := if v < 0 then -1 else if 0 < v then 1 else 0

/-- Sign of an integer as the `int` returned by the collaborator `sgn(Z)`. -/
def sgnZ (v : ℤ) : ℤ := if v < 0 then -1 else if 0 < v then 1 else 0

/-- Model of the external collaborators used by the conversion constructors:
`Q::get_d()` (GMP `mpq_get_d` / FLINT `fmpq_get_d`, documented to truncate
toward zero) and `nextafter(d, -INFINITY)` / `nextafter(d, INFINITY)` on the
finite representable `d` so obtained.  Fields state the documented behaviour
of those library functions relative to the finite binary64 set `isRepr`. -/
structure DModel where
  toD : ℚ → Fp
  next : ℚ → Fp
  prev : ℚ → Fp
  /-- Truncation toward zero on a nonnegative value never increases it. -/
  toD_le : ∀ v p : ℚ, 0 ≤ v → toD v = Fp.fin p → p ≤ v
  /-- Truncation toward zero on a nonpositive value never decreases it. -/
  toD_ge : ∀ v p : ℚ, v ≤ 0 → toD v = Fp.fin p → v ≤ p
  /-- On a nonnegative value, truncation yields the greatest representable
  value below the input: no representable value lies strictly between. -/
  toD_max : ∀ v p r : ℚ, 0 ≤ v → toD v = Fp.fin p → isRepr r → r ≤ v → r ≤ p
  /-- On a nonpositive value, truncation yields the least representable
  value above the input. -/
  toD_min : ∀ v p r : ℚ, v ≤ 0 → toD v = Fp.fin p → isRepr r → v ≤ r → p ≤ r
  /-- When finite, `nextafter(d, INFINITY)` is strictly above `d`. -/
  next_gt : ∀ d r : ℚ, next d = Fp.fin r → d < r
  /-- Result of `nextafter(d, INFINITY)`, when finite, is representable. -/
  next_repr : ∀ d r : ℚ, next d = Fp.fin r → isRepr r
  /-- Stepping up from a finite value cannot give NaN or `-inf`. -/
  next_fin : ∀ d : ℚ, next d ≠ Fp.ninf ∧ next d ≠ Fp.nan
  /-- When finite, `nextafter(d, -INFINITY)` is strictly below `d`. -/
  prev_lt : ∀ d r : ℚ, prev d = Fp.fin r → r < d
  /-- Result of `nextafter(d, -INFINITY)`, when finite, is representable. -/
  prev_repr : ∀ d r : ℚ, prev d = Fp.fin r → isRepr r
  /-- Stepping down from a finite value cannot give NaN or `+inf`. -/
  prev_fin : ∀ d : ℚ, prev d ≠ Fp.pinf ∧ prev d ≠ Fp.nan

/-- Witness instance of `DModel`: identity conversion, with the adjacent
representable values saturated to the infinities. -/
def dTriv : DModel where
  toD := fun v => Fp.fin v
  next := fun _ => Fp.pinf
  prev := fun _ => Fp.ninf
  toD_le := by intro v p _ h; cases h; exact le_refl v
  toD_ge := by intro v p _ h; cases h; exact le_refl v
  toD_max := by intro v p r _ h _ hr; cases h; exact hr
  toD_min := by intro v p r _ h _ hr; cases h; exact hr
  next_gt := by intro d r h; cases h
  next_repr := by intro d r h; cases h
  next_fin := by intro d; exact ⟨by simp, by simp⟩
  prev_lt := by intro d r h; cases h
  prev_repr := by intro d r h; cases h
  prev_fin := by intro d; exact ⟨by simp, by simp⟩

/-- Lift of `nextafter(d, INFINITY)` to `Fp` arguments
(`nextafter(INFINITY, INFINITY) = INFINITY`,
`nextafter(-INFINITY, INFINITY) = -DBL_MAX`). -/
def fnext (D : DModel) : Fp → Fp
  | Fp.nan => Fp.nan
  | Fp.pinf => Fp.pinf
  | Fp.ninf => Fp.fin (-dblMax)
  | Fp.fin q => D.next q

/-- Lift of `nextafter(d, -INFINITY)` to `Fp` arguments. -/
def fprev (D : DModel) : Fp → Fp
  | Fp.nan => Fp.nan
  | Fp.ninf => Fp.ninf
  | Fp.pinf => Fp.fin dblMax
  | Fp.fin q => D.prev q

/-- Private constructor `ival(double d, int sgn)`:
`{ sgn >= 0 ? d : nextafter(d, -INFINITY),
  -(sgn <= 0 ? d : nextafter(d, INFINITY)) }`. -/
def ival_dsgn (D : DModel) (d : Fp) (s : ℤ) : ival :=
  ⟨if 0 ≤ s then d else fprev D d,
   fneg (if s ≤ 0 then d else fnext D d)⟩

/-- Constructor `ival(const Q &v)`: `ival(v.get_d(), sgn(v))` — note there
is no representability test on this path. -/
def ival_of_Q (D : DModel) (v : ℚ) : ival := ival_dsgn D (D.toD v) (sgnQ v)

/-- Constructor `ival(const Z &v)`:
`ival(Q(v).get_d(), flt_prec(v) <= DBL_MANT_DIG ? 0 : sgn(v))`. -/
def ival_of_Z (D : DModel) (v : ℤ) : ival :=
  ival_dsgn D (D.toD (v : ℚ)) (if flt_prec v ≤ 53 then 0 else sgnZ v)

/-! Order lemmas for the IEEE comparisons on non-NaN values. -/

theorem fneg_fneg (a : Fp) : fneg (fneg a) = a := by
  cases a <;> simp [fneg]

theorem fle_not_nan_left {a b : Fp} (h : fle a b = true) : isnan a = false := by
  cases a <;> cases b <;> simp_all [fle, isnan]

theorem fle_not_nan_right {a b : Fp} (h : fle a b = true) : isnan b = false := by
  cases a <;> cases b <;> simp_all [fle, isnan]

theorem fle_refl {a : Fp} (h : isnan a = false) : fle a a = true := by
  cases a <;> simp_all [fle, isnan]

theorem fle_trans {a b c : Fp} (h1 : fle a b = true) (h2 : fle b c = true) :
    fle a c = true := by
  cases a <;> cases b <;> cases c <;> simp_all [fle] <;> linarith

theorem flt_of_flt_of_fle {a b c : Fp} (h1 : flt a b = true) (h2 : fle b c = true) :
    flt a c = true := by
  cases a <;> cases b <;> cases c <;> simp_all [fle, flt] <;> linarith

theorem flt_of_fle_of_flt {a b c : Fp} (h1 : fle a b = true) (h2 : flt b c = true) :
    flt a c = true := by
  cases a <;> cases b <;> cases c <;> simp_all [fle, flt] <;> linarith

theorem fle_of_flt {a b : Fp} (h : flt a b = true) : fle a b = true := by
  cases a <;> cases b <;> simp_all [fle, flt] <;> linarith

theorem flt_asymm {a b : Fp} (h : flt a b = true) : flt b a = false := by
  cases a <;> cases b <;> simp_all [flt] <;> linarith

theorem fle_of_not_flt {a b : Fp} (ha : isnan a = false) (hb : isnan b = false)
    (h : flt a b = false) : fle b a = true := by
  cases a <;> cases b <;> simp_all [fle, flt, isnan] <;> linarith

theorem not_flt_of_fle {a b : Fp} (h : fle a b = true) : flt b a = false := by
  cases a <;> cases b <;> simp_all [fle, flt] <;> linarith

theorem fle_fneg_swap {a b : Fp} (h : fle a b = true) :
    fle (fneg b) (fneg a) = true := by
  cases a <;> cases b <;> simp_all [fle, fneg] <;> linarith

theorem fle_fin_of_fle_fneg {x : ℚ} {u : Fp} (h : fle (Fp.fin x) (fneg u) = true) :
    fle u (Fp.fin (-x)) = true := by
  cases u <;> simp_all [fle, fneg] <;> linarith

theorem fle_fneg_of_fle_fin {u : Fp} {s r : ℚ} (h : fle u (Fp.fin s) = true)
    (hr : r ≤ -s) : fle (Fp.fin r) (fneg u) = true := by
  cases u <;> simp_all [fle, fneg] <;> linarith

/-! Lemmas about rounding toward negative infinity. -/

theorem rnd_fle (M : RndDown) {q : ℚ} (r : ℚ) (h : q ≤ r) :
    fle (M.rnd q) (Fp.fin r) = true := by
  rcases M.rnd_sound q with hn | ⟨p, hp, hpq⟩
  · rw [hn]; simp [fle]
  · rw [hp]; simp [fle]; linarith

theorem rnd_fneg_fle (M : RndDown) {q : ℚ} (r : ℚ) (h : r ≤ -q) :
    fle (Fp.fin r) (fneg (M.rnd q)) = true := by
  rcases M.rnd_sound q with hn | ⟨p, hp, hpq⟩
  · rw [hn]; simp [fle, fneg]
  · rw [hp]; simp [fle, fneg]; linarith

theorem fadd_fle (M : RndDown) {x y : Fp} {p q : ℚ}
    (hx : fle x (Fp.fin p) = true) (hy : fle y (Fp.fin q) = true) :
    fle (fadd M x y) (Fp.fin (p + q)) = true := by
  cases x <;> cases y <;> simp_all [fle, fadd]
  · exact rnd_fle M _ (by linarith)

theorem fmin_fle {x y : Fp} {p q : ℚ}
    (hx : fle x (Fp.fin p) = true) (hy : fle y (Fp.fin q) = true) :
    fle (fmin x y) (Fp.fin (min p q)) = true := by
  cases x with
  | nan => simp [fle] at hx
  | pinf => simp [fle] at hx
  | ninf => cases y <;> simp_all [fle, fmin, flt]
  | fin a =>
    cases y with
    | nan => simp [fle] at hy
    | pinf => simp [fle] at hy
    | ninf => simp [fmin, flt, fle]
    | fin b =>
      simp only [fle, decide_eq_true_eq] at hx hy
      by_cases h : b < a
      · have hcond : flt (Fp.fin b) (Fp.fin a) = true := by
          simp only [flt, decide_eq_true_eq]; exact h
        simp only [fmin, hcond, if_true, fle, decide_eq_true_eq, le_min_iff]
        exact ⟨by linarith, by linarith⟩
      · have hcond : flt (Fp.fin b) (Fp.fin a) = false := by
          simp only [flt]; exact decide_eq_false h
        push_neg at h
        simp only [fmin, hcond, Bool.false_eq_true, if_false, fle,
          decide_eq_true_eq, le_min_iff]
        exact ⟨by linarith, by linarith⟩

theorem fle_nan_left (x : Fp) : fle Fp.nan x = false := by
  cases x <;> simp [fle]

theorem fle_nan_right (x : Fp) : fle x Fp.nan = false := by
  cases x <;> simp [fle]

/-- Claim C9: unary negation of an interval only swaps the two stored
fields and performs no floating-point arithmetic, so negating twice
returns an interval with exactly the same two stored endpoints. -/
theorem C9_neg_involution (a : ival) :
    ival_neg a = ⟨a.hi_neg, a.lo_pos⟩ ∧ ival_neg (ival_neg a) = a := by
  exact ⟨rfl, rfl⟩

/-- Claim C4: whenever the divisor interval `b` contains zero (in its
interior or at an endpoint), `a / b` is the entire interval
`(-inf, +inf)` for every dividend `a`, and this result is a valid
non-empty interval (the constructor assertion holds), not an error. -/
theorem C4_div_zero_sentinel (M : RndDown) (a b : ival)
    (hb : contains b (Fp.fin 0) = true) :
    ival_div M a b = ⟨Fp.ninf, Fp.ninf⟩ ∧
    isentire (ival_div M a b) = true ∧
    isempty (ival_div M a b) = false ∧
    assert_inv (ival_div M a b) = true := by
  have hb2 := hb
  simp only [contains, Bool.and_eq_true] at hb2
  have h1 : fle (lo b) (Fp.fin 0) = true := hb2.1
  have h2 : fle (Fp.fin 0) (hi b) = true := hb2.2
  have hlo : flt (Fp.fin 0) b.lo_pos = false := not_flt_of_fle h1
  have hhi : flt (Fp.fin 0) b.hi_neg = false := by
    have h3 : fle b.hi_neg (Fp.fin (-0)) = true := fle_fin_of_fle_fneg h2
    rw [neg_zero] at h3
    exact not_flt_of_fle h3
  have hres : ival_div M a b = ⟨Fp.ninf, Fp.ninf⟩ := by
    unfold ival_div
    rw [hlo, hhi]
    simp
  refine ⟨hres, ?_, ?_, ?_⟩ <;> rw [hres] <;> rfl

/-- Closed witness for claim C4 at `a = [1,2]`, `b = [-1,1]`. -/
theorem C4_div_zero_sentinel_witness :
    ival_div rndId ⟨Fp.fin 1, Fp.fin (-2)⟩ ⟨Fp.fin (-1), Fp.fin (-1)⟩ =
      ⟨Fp.ninf, Fp.ninf⟩ ∧
    isentire (ival_div rndId ⟨Fp.fin 1, Fp.fin (-2)⟩ ⟨Fp.fin (-1), Fp.fin (-1)⟩) = true ∧
    isempty (ival_div rndId ⟨Fp.fin 1, Fp.fin (-2)⟩ ⟨Fp.fin (-1), Fp.fin (-1)⟩) = false ∧
    assert_inv (ival_div rndId ⟨Fp.fin 1, Fp.fin (-2)⟩ ⟨Fp.fin (-1), Fp.fin (-1)⟩) = true :=
  C4_div_zero_sentinel rndId ⟨Fp.fin 1, Fp.fin (-2)⟩ ⟨Fp.fin (-1), Fp.fin (-1)⟩ (by decide)

/-- Claim C10: multiplying an unbounded (non-NaN, non-empty) interval by
the scalar `0.0` computes `0 * inf = NaN` for the stored field holding the
infinite bound, so the result has a NaN endpoint and the private
constructor's assertion `lo_pos <= -hi_neg` does not hold: the never-NaN
non-empty guarantee fails for this public operation. -/
theorem C10_scalar_zero_nan (M : RndDown) (b : ival)
    (hne : isempty b = false) (hnn : isNaI b = false) (hub : isbounded b = false) :
    isNaI (scalar_mul M (Fp.fin 0) b) = true ∧
    assert_inv (scalar_mul M (Fp.fin 0) b) = false := by
  have hbranch : scalar_mul M (Fp.fin 0) b =
      ⟨fmul M (Fp.fin 0) b.lo_pos, fmul M (Fp.fin 0) b.hi_neg⟩ := by
    unfold scalar_mul
    have : fle (Fp.fin 0) (Fp.fin 0) = true := by simp [fle]
    rw [this]
    simp
  rw [hbranch]
  have hnl : isnan b.lo_pos = false := by
    unfold isNaI at hnn
    exact (Bool.or_eq_false_iff.mp hnn).1
  have hnh : isnan b.hi_neg = false := by
    unfold isNaI at hnn
    exact (Bool.or_eq_false_iff.mp hnn).2
  have hcases : (¬ isfinite b.lo_pos = true) ∨ (¬ isfinite b.hi_neg = true) := by
    unfold isbounded at hub
    rcases Bool.and_eq_false_iff.mp hub with h | h
    · left; unfold lo at h; simp [h]
    · right; unfold hi at h
      intro hf
      cases hb : b.hi_neg <;> rw [hb] at h hf <;> simp_all [fneg, isfinite]
  rcases hcases with h | h
  · cases hb : b.lo_pos <;> rw [hb] at h hnl <;> simp_all [isfinite, isnan] <;>
      simp [isNaI, assert_inv, fmul, fle_nan_left, isnan]
  · cases hb : b.hi_neg <;> rw [hb] at h hnh <;> simp_all [isfinite, isnan] <;>
      simp [isNaI, assert_inv, fmul, fneg, fle_nan_right, isnan]

/-- Closed witness for claim C10 at the entire interval. -/
theorem C10_scalar_zero_nan_witness :
    isNaI (scalar_mul rndId (Fp.fin 0) ⟨Fp.ninf, Fp.ninf⟩) = true ∧
    assert_inv (scalar_mul rndId (Fp.fin 0) ⟨Fp.ninf, Fp.ninf⟩) = false :=
  C10_scalar_zero_nan rndId ⟨Fp.ninf, Fp.ninf⟩ (by decide) (by decide) (by decide)

/-- Claim C7: for every non-empty (and non-NaN) interval, the sign
classifier returns `POS` iff both bounds are strictly positive, `NEG` iff
both bounds are strictly negative, `ZERO` iff the interval is exactly the
degenerate point `{0}`, and `OV_ZERO` in every other case (in particular
when zero is contained only at an endpoint). -/
theorem C7_sign_classification (a : ival)
    (hne : isempty a = false) (hnn : isNaI a = false) :
    (sgn_ival a = POS ↔ (flt (Fp.fin 0) (lo a) = true ∧ flt (Fp.fin 0) (hi a) = true)) ∧
    (sgn_ival a = NEG ↔ (flt (lo a) (Fp.fin 0) = true ∧ flt (hi a) (Fp.fin 0) = true)) ∧
    (sgn_ival a = ZERO ↔ (a.lo_pos = Fp.fin 0 ∧ a.hi_neg = Fp.fin 0)) ∧
    (sgn_ival a = OV_ZERO ↔ (fle (lo a) (Fp.fin 0) = true ∧ fle (Fp.fin 0) (hi a) = true ∧
        ¬(a.lo_pos = Fp.fin 0 ∧ a.hi_neg = Fp.fin 0))) := by
  obtain ⟨lp, un⟩ := a
  cases lp with
  | nan => simp [isNaI, isnan] at hnn
  | ninf =>
    cases un <;>
      simp_all [sgn_ival, lo, hi, fneg, flt, fle, ispoint, isfinite, feq, isNaI,
        isnan, isempty, POS, NEG, ZERO, OV_ZERO] <;>
      split_ifs <;> simp_all <;> linarith
  | pinf =>
    cases un <;>
      simp_all [sgn_ival, lo, hi, fneg, flt, fle, ispoint, isfinite, feq, isNaI,
        isnan, isempty, POS, NEG, ZERO, OV_ZERO] <;>
      split_ifs <;> simp_all <;> linarith
  | fin p =>
    cases un with
    | nan => simp [isNaI, isnan] at hnn
    | ninf =>
      simp_all [sgn_ival, lo, hi, fneg, flt, fle, ispoint, isfinite, feq, isNaI,
        isnan, isempty, POS, NEG, ZERO, OV_ZERO] <;>
      split_ifs <;> simp_all <;> linarith
    | pinf =>
      simp_all [sgn_ival, lo, hi, fneg, flt, fle, ispoint, isfinite, feq, isNaI,
        isnan, isempty, POS, NEG, ZERO, OV_ZERO]
    | fin u =>
      simp only [isempty, lo, hi, fneg, flt, Bool.decide_eq_false,
        decide_eq_true_eq] at hne
      have hleq : p ≤ -u := by
        by_contra hc
        push_neg at hc
        simp [decide_eq_true_eq, hc] at hne
      by_cases h1 : 0 < p
      · have h1u : 0 < -u := by linarith
        simp [sgn_ival, lo, hi, fneg, flt, fle, ispoint, isfinite, feq,
          POS, NEG, ZERO, OV_ZERO, h1, h1u]
        constructor
        · intro h; linarith
        · intro h; linarith
      · by_cases h2 : -u < 0
        · have h2p : p < 0 := by linarith
          simp [sgn_ival, lo, hi, fneg, flt, fle, ispoint, isfinite, feq,
            POS, NEG, ZERO, OV_ZERO, h1, h2, h2p]
          constructor
          · intro h; linarith
          · intro h h3; linarith
        · by_cases h3 : p = -u
          · have hp0 : p = 0 := by
              push_neg at h1 h2
              linarith
            have hu0 : u = 0 := by
              push_neg at h1 h2
              linarith
            subst hp0
            subst hu0
            simp [sgn_ival, lo, hi, fneg, flt, fle, ispoint, isfinite, feq,
              POS, NEG, ZERO, OV_ZERO]
          · push_neg at h1 h2
            simp [sgn_ival, lo, hi, fneg, flt, fle, ispoint, isfinite, feq,
              POS, NEG, ZERO, OV_ZERO, h1, h2, h3,
              not_lt.mpr h1, not_lt.mpr h2]
            intro hp0 hu0
            apply h3
            rw [hp0, hu0]
            simp

/-- Closed witness for claim C7 at the interval `[0,1]`, which contains
zero only at an endpoint and classifies as `OV_ZERO`. -/
theorem C7_sign_classification_witness :
    (sgn_ival ⟨Fp.fin 0, Fp.fin (-1)⟩ = POS ↔
      (flt (Fp.fin 0) (lo ⟨Fp.fin 0, Fp.fin (-1)⟩) = true ∧
       flt (Fp.fin 0) (hi ⟨Fp.fin 0, Fp.fin (-1)⟩) = true)) ∧
    (sgn_ival ⟨Fp.fin 0, Fp.fin (-1)⟩ = NEG ↔
      (flt (lo ⟨Fp.fin 0, Fp.fin (-1)⟩) (Fp.fin 0) = true ∧
       flt (hi ⟨Fp.fin 0, Fp.fin (-1)⟩) (Fp.fin 0) = true)) ∧
    (sgn_ival ⟨Fp.fin 0, Fp.fin (-1)⟩ = ZERO ↔
      (ival.lo_pos ⟨Fp.fin 0, Fp.fin (-1)⟩ = Fp.fin 0 ∧
       ival.hi_neg ⟨Fp.fin 0, Fp.fin (-1)⟩ = Fp.fin 0)) ∧
    (sgn_ival ⟨Fp.fin 0, Fp.fin (-1)⟩ = OV_ZERO ↔
      (fle (lo ⟨Fp.fin 0, Fp.fin (-1)⟩) (Fp.fin 0) = true ∧
       fle (Fp.fin 0) (hi ⟨Fp.fin 0, Fp.fin (-1)⟩) = true ∧
       ¬(ival.lo_pos ⟨Fp.fin 0, Fp.fin (-1)⟩ = Fp.fin 0 ∧
         ival.hi_neg ⟨Fp.fin 0, Fp.fin (-1)⟩ = Fp.fin 0))) :=
  C7_sign_classification ⟨Fp.fin 0, Fp.fin (-1)⟩ (by decide) (by decide)

/-- Claim C5 counterexample: on `a = [1,2]`, `b = [1,3]` (the relation
`starts`), `cmp_detailed` returns the combined value
`STARTS | CONTAINED_BY | FINISHES`, which is not one of the sixteen
individual `ieee1788_cmp` relations. -/
theorem C5_counterexample :
    cmp_detailed ⟨Fp.fin 1, Fp.fin (-2)⟩ ⟨Fp.fin 1, Fp.fin (-3)⟩ = IVAL_SUB ∧
    IVAL_SUB = (STARTS ||| CONTAINED_BY ||| FINISHES) ∧
    cmp_detailed ⟨Fp.fin 1, Fp.fin (-2)⟩ ⟨Fp.fin 1, Fp.fin (-3)⟩ ∉
      [BOTH_EMPTY, FIRST_EMPTY, SECOND_EMPTY, BEFORE, MEETS, OVERLAPS, STARTS,
       CONTAINED_BY, FINISHES, EQUALS, FINISHED_BY, CONTAINS, STARTED_BY,
       OVERLAPPED_BY, MET_BY, AFTER] := by
  refine ⟨by decide, by decide, by decide⟩

/-- Claim C5 as amended: `cmp_detailed` always returns exactly one of NINE
pairwise distinct values — `before`, `meets`, `overlaps`, the combined
`starts|contained-by|finishes`, `equals`, the combined
`finished-by|contains|started-by`, `overlapped-by`, `met-by`, `after` —
and never the three empty-operand variants; the two concrete examples of
the claim hold. -/
theorem C5_cmp_detailed_nine (a b : ival) :
    cmp_detailed a b ∈
      [IVAL_LT, IVAL_LE, IVAL_LO, IVAL_SUB, IVAL_EQ, IVAL_SUP, IVAL_GO,
       IVAL_GE, IVAL_GT] ∧
    [IVAL_LT, IVAL_LE, IVAL_LO, IVAL_SUB, IVAL_EQ, IVAL_SUP, IVAL_GO,
       IVAL_GE, IVAL_GT].Nodup ∧
    cmp_detailed ⟨Fp.fin 1, Fp.fin (-2)⟩ ⟨Fp.fin 3, Fp.fin (-4)⟩ = IVAL_LT ∧
    IVAL_LT = BEFORE ∧
    cmp_detailed ⟨Fp.fin 1, Fp.fin (-5)⟩ ⟨Fp.fin 5, Fp.fin (-9)⟩ = IVAL_LE ∧
    IVAL_LE = MEETS := by
  refine ⟨?_, by decide, by decide, by decide, by decide, by decide⟩
  simp only [cmp_detailed]
  split_ifs <;> decide

/-- Claim C6: on a non-empty interval unbounded below, such as
`(-inf, 5]`, `mid` returns `DBL_MIN` (the smallest positive normal,
`2^-1022`) — a finite value, but not the nearest representable finite
extreme `-DBL_MAX`, unlike the symmetric upper-unbounded branch which does
return `DBL_MAX`; `rad` and `wid` return `+inf` as claimed. -/
theorem C6_mid_unbounded (M : RndDown) :
    mid M ⟨Fp.ninf, Fp.fin (-5)⟩ = Fp.fin dblMin ∧
    Fp.fin dblMin ≠ Fp.fin (-dblMax) ∧
    isinf (mid M ⟨Fp.ninf, Fp.fin (-5)⟩) = false ∧
    mid M ⟨Fp.fin 5, Fp.ninf⟩ = Fp.fin dblMax ∧
    mid M ⟨Fp.ninf, Fp.ninf⟩ = Fp.fin 0 ∧
    rad M ⟨Fp.ninf, Fp.fin (-5)⟩ = Fp.pinf ∧
    wid M ⟨Fp.ninf, Fp.fin (-5)⟩ = Fp.pinf := by
  refine ⟨?_, ?_, ?_, ?_, ?_, ?_, ?_⟩
  · simp [mid, isempty, isentire, isinf, lo, hi, fneg, flt, isfinite, feq]
  · simp only [ne_eq, Fp.fin.injEq]
    norm_num [dblMin, dblMax]
  · simp [mid, isempty, isentire, isinf, lo, hi, fneg, flt, isfinite, feq]
  · simp [mid, isempty, isentire, isinf, lo, hi, fneg, flt, isfinite, feq]
  · simp [mid, isempty, isentire, isinf, lo, hi, fneg, flt, isfinite, feq]
  · simp [rad, isempty, isbounded, lo, hi, fneg, flt, isfinite]
  · simp [wid, wid_enc, isempty, lo, hi, fneg, flt, fadd, fsub]

/-- Closed witness for claim C6 under the witness rounding model. -/
theorem C6_mid_unbounded_witness :
    mid rndId ⟨Fp.ninf, Fp.fin (-5)⟩ = Fp.fin dblMin ∧
    Fp.fin dblMin ≠ Fp.fin (-dblMax) ∧
    isinf (mid rndId ⟨Fp.ninf, Fp.fin (-5)⟩) = false ∧
    mid rndId ⟨Fp.fin 5, Fp.ninf⟩ = Fp.fin dblMax ∧
    mid rndId ⟨Fp.ninf, Fp.ninf⟩ = Fp.fin 0 ∧
    rad rndId ⟨Fp.ninf, Fp.fin (-5)⟩ = Fp.pinf ∧
    wid rndId ⟨Fp.ninf, Fp.fin (-5)⟩ = Fp.pinf :=
  C6_mid_unbounded rndId

/-- Claim C2: for every exact rational `v` whose truncating conversion to
double is finite, the constructed interval `ival(Q(v))` encloses `v`:
`lo(I) <= v <= hi(I)` (this includes every `v` needing more than 53
significant bits; soundness rests on `mpq_get_d` truncating toward zero,
so the widening away from zero on one side suffices). -/
theorem C2_conversion_enclosure (D : DModel) (v d : ℚ)
    (hd : D.toD v = Fp.fin d) :
    contains (ival_of_Q D v) (Fp.fin v) = true := by
  simp only [contains, Bool.and_eq_true]
  rcases lt_trichotomy v 0 with hv | hv | hv
  · have hs : sgnQ v = -1 := by simp [sgnQ, hv]
    have hI : ival_of_Q D v = ⟨fprev D (Fp.fin d), fneg (Fp.fin d)⟩ := by
      unfold ival_of_Q ival_dsgn
      rw [hs, hd]
      norm_num
    rw [hI]
    constructor
    · show fle (lo ⟨fprev D (Fp.fin d), fneg (Fp.fin d)⟩) (Fp.fin v) = true
      unfold lo
      show fle (fprev D (Fp.fin d)) (Fp.fin v) = true
      have : fprev D (Fp.fin d) = D.prev d := rfl
      rw [this]
      cases hp : D.prev d with
      | nan => exact absurd hp (D.prev_fin d).2
      | pinf => exact absurd hp (D.prev_fin d).1
      | ninf => simp [fle]
      | fin r =>
        simp only [fle, decide_eq_true_eq]
        by_contra hc
        push_neg at hc
        have hrep : isRepr r := D.prev_repr d r hp
        have h1 : d ≤ r := D.toD_min v d r (le_of_lt hv) hd hrep (le_of_lt hc)
        have h2 : r < d := D.prev_lt d r hp
        linarith
    · show fle (Fp.fin v) (hi ⟨fprev D (Fp.fin d), fneg (Fp.fin d)⟩) = true
      unfold hi
      show fle (Fp.fin v) (fneg (fneg (Fp.fin d))) = true
      rw [fneg_fneg]
      simp only [fle, decide_eq_true_eq]
      exact D.toD_ge v d (le_of_lt hv) hd
  · subst hv
    have hd0 : d = 0 := by
      have h1 := D.toD_le 0 d (le_refl 0) hd
      have h2 := D.toD_ge 0 d (le_refl 0) hd
      linarith
    subst hd0
    have hI : ival_of_Q D 0 = ⟨Fp.fin 0, fneg (Fp.fin 0)⟩ := by
      unfold ival_of_Q ival_dsgn sgnQ
      rw [hd]
      norm_num
    rw [hI]
    constructor
    · simp [lo, fle]
    · simp [hi, fneg_fneg, fle]
  · have hs : sgnQ v = 1 := by simp [sgnQ, hv, not_lt.mpr (le_of_lt hv)]
    have hI : ival_of_Q D v = ⟨Fp.fin d, fneg (fnext D (Fp.fin d))⟩ := by
      unfold ival_of_Q ival_dsgn
      rw [hs, hd]
      norm_num
    rw [hI]
    constructor
    · show fle (Fp.fin d) (Fp.fin v) = true
      simp only [fle, decide_eq_true_eq]
      exact D.toD_le v d (le_of_lt hv) hd
    · show fle (Fp.fin v) (fneg (fneg (fnext D (Fp.fin d)))) = true
      rw [fneg_fneg]
      have : fnext D (Fp.fin d) = D.next d := rfl
      rw [this]
      cases hp : D.next d with
      | nan => exact absurd hp (D.next_fin d).2
      | ninf => exact absurd hp (D.next_fin d).1
      | pinf => simp [fle]
      | fin r =>
        simp only [fle, decide_eq_true_eq]
        by_contra hc
        push_neg at hc
        have hrep : isRepr r := D.next_repr d r hp
        have h1 : r ≤ d := D.toD_max v d r (le_of_lt hv) hd hrep (le_of_lt hc)
        have h2 : d < r := D.next_gt d r hp
        linarith

/-- Closed witness for claim C2 at `v = 1/3` (not exactly representable). -/
theorem C2_conversion_enclosure_witness :
    contains (ival_of_Q dTriv (1 / 3)) (Fp.fin (1 / 3)) = true :=
  C2_conversion_enclosure dTriv (1 / 3) (1 / 3) rfl

/-- Claim C3 counterexample: the rational value `1` is exactly
representable (one significant bit), yet `ival(Q(1))` is not the point
interval `[1,1]`: the rational constructor skips the representability
test and widens every nonzero value by its sign. -/
theorem C3_counterexample :
    dTriv.toD 1 = Fp.fin 1 ∧
    ispoint (ival_of_Q dTriv 1) = false ∧
    ival_of_Q dTriv 1 ≠ ⟨Fp.fin 1, Fp.fin (-1)⟩ := by
  refine ⟨rfl, by decide, by decide⟩

/-- Claim C3 as amended: the integer constructor (`Z`) implements the
claimed policy — point interval `[d,d]` when `flt_prec(v) <= 53`, else
`[prev(d), d]` for negative and `[d, next(d)]` for positive `v` — but the
rational constructor (`Q`) performs no representability test: it yields
the point `[d,d]` only for `v = 0` and otherwise always widens by the
sign of `v`, even when `v` is exactly representable. -/
theorem C3_conversion_policy (D : DModel) :
    (∀ v d : ℚ, D.toD v = Fp.fin d →
      ((v = 0 → ival_of_Q D v = ⟨Fp.fin d, Fp.fin (-d)⟩) ∧
       (0 < v → ival_of_Q D v = ⟨Fp.fin d, fneg (D.next d)⟩) ∧
       (v < 0 → ival_of_Q D v = ⟨D.prev d, Fp.fin (-d)⟩))) ∧
    (∀ (v : ℤ) (d : ℚ), D.toD (v : ℚ) = Fp.fin d →
      ((flt_prec v ≤ 53 → ival_of_Z D v = ⟨Fp.fin d, Fp.fin (-d)⟩) ∧
       (53 < flt_prec v → 0 < v → ival_of_Z D v = ⟨Fp.fin d, fneg (D.next d)⟩) ∧
       (53 < flt_prec v → v < 0 → ival_of_Z D v = ⟨D.prev d, Fp.fin (-d)⟩))) := by
  constructor
  · intro v d hd
    refine ⟨?_, ?_, ?_⟩
    · intro hv
      subst hv
      unfold ival_of_Q ival_dsgn sgnQ
      rw [hd]
      norm_num [fneg]
    · intro hv
      have hs : sgnQ v = 1 := by simp [sgnQ, hv, not_lt.mpr (le_of_lt hv)]
      unfold ival_of_Q ival_dsgn
      rw [hs, hd]
      norm_num
      rfl
    · intro hv
      have hs : sgnQ v = -1 := by simp [sgnQ, hv]
      unfold ival_of_Q ival_dsgn
      rw [hs, hd]
      norm_num [fneg]
      rfl
  · intro v d hd
    refine ⟨?_, ?_, ?_⟩
    · intro hv
      unfold ival_of_Z ival_dsgn
      rw [if_pos hv, hd]
      norm_num [fneg]
    · intro hv hv2
      have hs : sgnZ v = 1 := by simp [sgnZ, hv2, not_lt.mpr (le_of_lt hv2)]
      have hsel : (if flt_prec v ≤ 53 then (0 : ℤ) else sgnZ v) = 1 := by
        rw [if_neg (by omega), hs]
      unfold ival_of_Z ival_dsgn
      rw [hsel, hd]
      norm_num
      rfl
    · intro hv hv2
      have hs : sgnZ v = -1 := by simp [sgnZ, hv2]
      have hsel : (if flt_prec v ≤ 53 then (0 : ℤ) else sgnZ v) = -1 := by
        rw [if_neg (by omega), hs]
      unfold ival_of_Z ival_dsgn
      rw [hsel, hd]
      norm_num [fneg]
      rfl

/-- Closed witness for claim C3: the rational branch at `v = 1` widens
upward, the integer branch at `v = 7` (3 significant bits) is a point. -/
theorem C3_conversion_policy_witness :
    ival_of_Q dTriv 1 = ⟨Fp.fin 1, fneg (dTriv.next 1)⟩ ∧
    ival_of_Z dTriv 7 = ⟨Fp.fin ((7 : ℤ) : ℚ), Fp.fin (-((7 : ℤ) : ℚ))⟩ :=
  ⟨((C3_conversion_policy dTriv).1 1 1 rfl).2.1 one_pos,
   ((C3_conversion_policy dTriv).2 7 ((7 : ℤ) : ℚ) rfl).1 (by decide)⟩

theorem flt_irrefl (a : Fp) : flt a a = false := by
  cases a <;> simp [flt]

theorem isnan_fneg (x : Fp) : isnan (fneg x) = isnan x := by
  cases x <;> rfl

theorem cmp_lt_iff (x y : Fp) : cmp x y < 0 ↔ flt x y = true := by
  unfold cmp
  split_ifs with h1 h2 <;> simp [h1] <;> decide

theorem cmp_gt_iff (x y : Fp) : 0 < cmp x y ↔ flt y x = true := by
  unfold cmp
  split_ifs with h1 h2
  · rw [flt_asymm h1]
    simp
  · simp [h2]
  · simp only [Bool.not_eq_true] at h2
    rw [h2]
    simp

/-- Claim C8: for non-empty non-NaN intervals, `cmp(a,b)` returns `-1`
exactly when every double in `a` is below every double in `b`, `+1`
exactly in the mirrored case, and `0` exactly when the intervals share at
least one double (so for disjoint intervals exactly one of -1/+1 occurs);
and `-1`/`+1` coincide exactly with `cmp_detailed` returning
`IVAL_LT`/`IVAL_GT`. -/
theorem C8_cmp3_order (a b : ival)
    (hea : isempty a = false) (heb : isempty b = false)
    (hna : isNaI a = false) (hnb : isNaI b = false) :
    (cmp_ival a b = -1 ↔
      ∀ x y : Fp, contains a x = true → contains b y = true → flt x y = true) ∧
    (cmp_ival a b = 1 ↔
      ∀ x y : Fp, contains a x = true → contains b y = true → flt y x = true) ∧
    (cmp_ival a b = 0 ↔ ∃ x : Fp, contains a x = true ∧ contains b x = true) ∧
    (cmp_ival a b = -1 ↔ cmp_detailed a b = IVAL_LT) ∧
    (cmp_ival a b = 1 ↔ cmp_detailed a b = IVAL_GT) := by
  simp only [isNaI, Bool.or_eq_false_iff] at hna hnb
  have hla : isnan (lo a) = false := hna.1
  have hha : isnan (hi a) = false := by
    show isnan (fneg a.hi_neg) = false
    rw [isnan_fneg]
    exact hna.2
  have hlb : isnan (lo b) = false := hnb.1
  have hhb : isnan (hi b) = false := by
    show isnan (fneg b.hi_neg) = false
    rw [isnan_fneg]
    exact hnb.2
  have haa : fle (lo a) (hi a) = true := by
    apply fle_of_not_flt hha hla
    exact hea
  have hbb : fle (lo b) (hi b) = true := by
    apply fle_of_not_flt hhb hlb
    exact heb
  have hmalo : contains a (lo a) = true := by
    simp only [contains, Bool.and_eq_true]
    exact ⟨fle_refl hla, haa⟩
  have hmahi : contains a (hi a) = true := by
    simp only [contains, Bool.and_eq_true]
    exact ⟨haa, fle_refl hha⟩
  have hmblo : contains b (lo b) = true := by
    simp only [contains, Bool.and_eq_true]
    exact ⟨fle_refl hlb, hbb⟩
  have hmbhi : contains b (hi b) = true := by
    simp only [contains, Bool.and_eq_true]
    exact ⟨hbb, fle_refl hhb⟩
  -- the -1 return value is exactly the first guard
  have hm1 : cmp_ival a b = -1 ↔ flt (hi a) (lo b) = true := by
    unfold cmp_ival
    split_ifs with h1 h2 <;> simp [h1] <;> decide
  -- the +1 return value is exactly the second guard (the first cannot
  -- hold together with it, by non-emptiness)
  have hm2 : cmp_ival a b = 1 ↔ flt (hi b) (lo a) = true := by
    unfold cmp_ival
    split_ifs with h1 h2
    · constructor
      · intro h; exact absurd h (by decide)
      · intro h
        exfalso
        have s1 : flt (hi b) (hi a) = true := flt_of_flt_of_fle h haa
        have s2 : flt (lo b) (hi a) = true := flt_of_fle_of_flt hbb s1
        rw [flt_asymm s2] at h1
        exact Bool.false_ne_true h1
    · simp [h2]
    · simp only [Bool.not_eq_true] at h2
      rw [h2]
      simp
  have hs1 : (cmp_ival a b = -1 ↔
      ∀ x y : Fp, contains a x = true → contains b y = true → flt x y = true) := by
    rw [hm1]
    constructor
    · intro h x y hx hy
      simp only [contains, Bool.and_eq_true] at hx hy
      exact flt_of_fle_of_flt hx.2 (flt_of_flt_of_fle h hy.1)
    · intro h
      exact h (hi a) (lo b) hmahi hmblo
  have hs2 : (cmp_ival a b = 1 ↔
      ∀ x y : Fp, contains a x = true → contains b y = true → flt y x = true) := by
    rw [hm2]
    constructor
    · intro h x y hx hy
      simp only [contains, Bool.and_eq_true] at hx hy
      exact flt_of_fle_of_flt hy.2 (flt_of_flt_of_fle h hx.1)
    · intro h
      exact h (lo a) (hi b) hmalo hmbhi
  refine ⟨hs1, hs2, ?_, ?_, ?_⟩
  · -- 0 iff the intervals share a point
    constructor
    · intro h
      have hg1 : flt (hi a) (lo b) = false := by
        by_contra hc
        rw [Bool.not_eq_false] at hc
        rw [hm1.mpr hc] at h
        exact absurd h (by decide)
      have hg2 : flt (hi b) (lo a) = false := by
        by_contra hc
        rw [Bool.not_eq_false] at hc
        rw [hm2.mpr hc] at h
        exact absurd h (by decide)
      have hba : fle (lo b) (hi a) = true := fle_of_not_flt hha hlb hg1
      have hab : fle (lo a) (hi b) = true := fle_of_not_flt hhb hla hg2
      by_cases hc : flt (lo a) (lo b) = true
      · refine ⟨lo b, ?_, hmblo⟩
        simp only [contains, Bool.and_eq_true]
        exact ⟨fle_of_flt hc, hba⟩
      · refine ⟨lo a, hmalo, ?_⟩
        simp only [contains, Bool.and_eq_true]
        rw [Bool.not_eq_true] at hc
        exact ⟨fle_of_not_flt hla hlb hc, hab⟩
    · rintro ⟨x, hx, hy⟩
      simp only [contains, Bool.and_eq_true] at hx hy
      have hg1 : flt (hi a) (lo b) = false := by
        by_contra hc
        rw [Bool.not_eq_false] at hc
        have s1 : flt (hi a) x = true := flt_of_flt_of_fle hc hy.1
        have s2 : flt (hi a) (hi a) = true := flt_of_flt_of_fle s1 hx.2
        rw [flt_irrefl] at s2
        exact Bool.false_ne_true s2
      have hg2 : flt (hi b) (lo a) = false := by
        by_contra hc
        rw [Bool.not_eq_false] at hc
        have s1 : flt (hi b) x = true := flt_of_flt_of_fle hc hx.1
        have s2 : flt (hi b) (hi b) = true := flt_of_flt_of_fle s1 hy.2
        rw [flt_irrefl] at s2
        exact Bool.false_ne_true s2
      unfold cmp_ival
      rw [hg1, hg2]
      simp
  · -- -1 coincides with IVAL_LT
    rw [hm1]
    constructor
    · intro h
      unfold cmp_detailed
      have hhl : cmp (hi a) (lo b) < 0 := (cmp_lt_iff _ _).mpr h
      rw [if_pos hhl]
    · intro h
      by_contra hc
      rw [Bool.not_eq_true] at hc
      have hhl : ¬ cmp (hi a) (lo b) < 0 := by
        rw [cmp_lt_iff]
        simp [hc]
      revert h
      unfold cmp_detailed
      rw [if_neg hhl]
      split_ifs <;> decide
  · -- +1 coincides with IVAL_GT
    rw [hm2]
    constructor
    · intro h
      have hg1 : flt (hi a) (lo b) = false := by
        have s1 : flt (hi b) (hi a) = true := flt_of_flt_of_fle h haa
        have s2 : flt (lo b) (hi a) = true := flt_of_fle_of_flt hbb s1
        exact flt_asymm s2
      have hhl : ¬ cmp (hi a) (lo b) < 0 := by
        rw [cmp_lt_iff]
        simp [hg1]
      have hhh : ¬ (cmp (lo a) (lo b) < 0 ∧ cmp (hi a) (hi b) < 0) := by
        rintro ⟨-, h2⟩
        rw [cmp_lt_iff] at h2
        have s1 : flt (hi b) (hi a) = true := flt_of_flt_of_fle h haa
        rw [flt_asymm s1] at h2
        exact Bool.false_ne_true h2
      have hlh : 0 < cmp (lo a) (hi b) := by
        rw [cmp_gt_iff]
        exact h
      unfold cmp_detailed
      rw [if_neg hhl, if_neg hhh, if_pos hlh]
    · intro h
      by_contra hc
      rw [Bool.not_eq_true] at hc
      have hlh : ¬ 0 < cmp (lo a) (hi b) := by
        rw [cmp_gt_iff]
        simp [hc]
      revert h
      simp only [cmp_detailed]
      split_ifs <;> first | decide | (exact absurd (by assumption) hlh)

/-- Closed witness for claim C8 at `a = [1,2]`, `b = [3,4]`. -/
theorem C8_cmp3_order_witness :
    (cmp_ival ⟨Fp.fin 1, Fp.fin (-2)⟩ ⟨Fp.fin 3, Fp.fin (-4)⟩ = -1 ↔
      ∀ x y : Fp, contains ⟨Fp.fin 1, Fp.fin (-2)⟩ x = true →
        contains ⟨Fp.fin 3, Fp.fin (-4)⟩ y = true → flt x y = true) ∧
    (cmp_ival ⟨Fp.fin 1, Fp.fin (-2)⟩ ⟨Fp.fin 3, Fp.fin (-4)⟩ = 1 ↔
      ∀ x y : Fp, contains ⟨Fp.fin 1, Fp.fin (-2)⟩ x = true →
        contains ⟨Fp.fin 3, Fp.fin (-4)⟩ y = true → flt y x = true) ∧
    (cmp_ival ⟨Fp.fin 1, Fp.fin (-2)⟩ ⟨Fp.fin 3, Fp.fin (-4)⟩ = 0 ↔
      ∃ x : Fp, contains ⟨Fp.fin 1, Fp.fin (-2)⟩ x = true ∧
        contains ⟨Fp.fin 3, Fp.fin (-4)⟩ x = true) ∧
    (cmp_ival ⟨Fp.fin 1, Fp.fin (-2)⟩ ⟨Fp.fin 3, Fp.fin (-4)⟩ = -1 ↔
      cmp_detailed ⟨Fp.fin 1, Fp.fin (-2)⟩ ⟨Fp.fin 3, Fp.fin (-4)⟩ = IVAL_LT) ∧
    (cmp_ival ⟨Fp.fin 1, Fp.fin (-2)⟩ ⟨Fp.fin 3, Fp.fin (-4)⟩ = 1 ↔
      cmp_detailed ⟨Fp.fin 1, Fp.fin (-2)⟩ ⟨Fp.fin 3, Fp.fin (-4)⟩ = IVAL_GT) :=
  C8_cmp3_order ⟨Fp.fin 1, Fp.fin (-2)⟩ ⟨Fp.fin 3, Fp.fin (-4)⟩
    (by decide) (by decide) (by decide) (by decide)

/-- Helper: enclosure of addition at the level of intervals (any shape:
membership of a rational forces the relevant stored fields to be finite
or `-inf`, so no NaN can arise). -/
theorem add_enclosure (M : RndDown) (a b : ival) (x y : ℚ)
    (hx : contains a (Fp.fin x) = true) (hy : contains b (Fp.fin y) = true) :
    contains (ival_add M a b) (Fp.fin (x + y)) = true := by
  simp only [contains, Bool.and_eq_true] at hx hy ⊢
  obtain ⟨hx1, hx2⟩ := hx
  obtain ⟨hy1, hy2⟩ := hy
  constructor
  · exact fadd_fle M hx1 hy1
  · have h1 : fle a.hi_neg (Fp.fin (-x)) = true := fle_fin_of_fle_fneg hx2
    have h2 : fle b.hi_neg (Fp.fin (-y)) = true := fle_fin_of_fle_fneg hy2
    have h3 := fadd_fle M h1 h2
    exact fle_fneg_of_fle_fin h3 (by linarith)

/-- Helper: a bounded interval containing a rational has two finite stored
fields bracketing it. -/
theorem bounded_mem (a : ival) (x : ℚ) (hb : isbounded a = true)
    (hx : contains a (Fp.fin x) = true) :
    ∃ la ua : ℚ, a.lo_pos = Fp.fin la ∧ a.hi_neg = Fp.fin ua ∧
      la ≤ x ∧ x ≤ -ua := by
  cases hl : a.lo_pos <;> cases hu : a.hi_neg <;>
    simp_all [isbounded, isfinite, lo, hi, fneg, contains, fle]

/-- Helper: rounded-down minimum of two rounded products is below any
value above one of the exact products. -/
theorem fmin_rnd_fle (M : RndDown) {p q r : ℚ} (h : min p q ≤ r) :
    fle (fmin (M.rnd p) (M.rnd q)) (Fp.fin r) = true := by
  have h3 := fmin_fle (rnd_fle M p (le_refl p)) (rnd_fle M q (le_refl q))
  apply fle_trans h3
  simp only [fle, decide_eq_true_eq]
  exact h

/-- Helper: negation of the rounded-down minimum bounds any value below
the negated exact minimum. -/
theorem fmin_rnd_fneg_fle (M : RndDown) {p q r : ℚ} (h : r ≤ -(min p q)) :
    fle (Fp.fin r) (fneg (fmin (M.rnd p) (M.rnd q))) = true := by
  have h3 := fmin_fle (rnd_fle M p (le_refl p)) (rnd_fle M q (le_refl q))
  exact fle_fneg_of_fle_fin h3 h

/-- Helper: enclosure of the general (zero-straddling) multiplication case
at the rational level, lower bound. -/
theorem qmul_general_lo (la ha lb hb x y : ℚ)
    (ha1 : la ≤ x) (ha2 : x ≤ ha) (hb1 : lb ≤ y) (hb2 : y ≤ hb)
    (hn1 : ¬(0 ≤ la ∧ 0 ≤ lb)) (hn2 : ¬(ha ≤ 0 ∧ hb ≤ 0))
    (hn3 : ¬(ha ≤ 0 ∧ 0 ≤ lb)) :
    min (ha * lb) (la * hb) ≤ x * y := by
  rcases le_or_lt 0 y with hy | hy
  · rcases le_or_lt la 0 with hla | hla
    · have s1 : la * hb ≤ la * y := mul_le_mul_of_nonpos_left hb2 hla
      have s2 : la * y ≤ x * y := mul_le_mul_of_nonneg_right ha1 hy
      calc min (ha * lb) (la * hb) ≤ la * hb := min_le_right _ _
        _ ≤ x * y := by linarith
    · have hlb : lb < 0 := by
        by_contra hc
        push_neg at hc
        exact hn1 ⟨le_of_lt hla, hc⟩
      have hha : 0 < ha := by linarith
      have s1 : ha * lb < 0 := mul_neg_of_pos_of_neg hha hlb
      have s2 : 0 ≤ x * y := mul_nonneg (by linarith) hy
      calc min (ha * lb) (la * hb) ≤ ha * lb := min_le_left _ _
        _ ≤ x * y := by linarith
  · rcases le_or_lt 0 ha with hha | hha
    · have s1 : ha * lb ≤ ha * y := mul_le_mul_of_nonneg_left hb1 hha
      have s2 : ha * y ≤ x * y := mul_le_mul_of_nonpos_right ha2 (le_of_lt hy)
      calc min (ha * lb) (la * hb) ≤ ha * lb := min_le_left _ _
        _ ≤ x * y := by linarith
    · have hhb : 0 < hb := by
        by_contra hc
        push_neg at hc
        exact hn2 ⟨le_of_lt hha, hc⟩
      have s1 : la * hb < 0 := mul_neg_of_neg_of_pos (by linarith) hhb
      have s2 : 0 < x * y := mul_pos_of_neg_of_neg (by linarith) hy
      calc min (ha * lb) (la * hb) ≤ la * hb := min_le_right _ _
        _ ≤ x * y := by linarith

/-- Helper: enclosure of the general (zero-straddling) multiplication case
at the rational level, upper bound. -/
theorem qmul_general_hi (la ha lb hb x y : ℚ)
    (ha1 : la ≤ x) (ha2 : x ≤ ha) (hb1 : lb ≤ y) (hb2 : y ≤ hb)
    (hn1 : ¬(0 ≤ la ∧ 0 ≤ lb)) (hn2 : ¬(ha ≤ 0 ∧ hb ≤ 0))
    (hn3 : ¬(ha ≤ 0 ∧ 0 ≤ lb)) (hn4 : ¬(0 ≤ la ∧ hb ≤ 0)) :
    x * y ≤ max (ha * hb) (la * lb) := by
  rcases le_or_lt 0 y with hy | hy
  · rcases le_or_lt 0 ha with hha | hha
    · have s1 : x * y ≤ ha * y := mul_le_mul_of_nonneg_right ha2 hy
      have s2 : ha * y ≤ ha * hb := mul_le_mul_of_nonneg_left hb2 hha
      calc x * y ≤ ha * hb := by linarith
        _ ≤ max (ha * hb) (la * lb) := le_max_left _ _
    · have hlb : lb < 0 := by
        by_contra hc
        push_neg at hc
        exact hn3 ⟨le_of_lt hha, hc⟩
      have s1 : x * y ≤ 0 := mul_nonpos_iff.mpr (Or.inr ⟨by linarith, hy⟩)
      have s2 : 0 < la * lb := mul_pos_of_neg_of_neg (by linarith) hlb
      calc x * y ≤ la * lb := by linarith
        _ ≤ max (ha * hb) (la * lb) := le_max_right _ _
  · rcases le_or_lt la 0 with hla | hla
    · have s1 : x * y ≤ la * y := mul_le_mul_of_nonpos_right ha1 (le_of_lt hy)
      have s2 : la * y ≤ la * lb := mul_le_mul_of_nonpos_left hb1 hla
      calc x * y ≤ la * lb := by linarith
        _ ≤ max (ha * hb) (la * lb) := le_max_right _ _
    · have hlb : lb < 0 := by
        by_contra hc
        push_neg at hc
        exact hn1 ⟨le_of_lt hla, hc⟩
      have hhb : 0 < hb := by
        by_contra hc
        push_neg at hc
        exact hn4 ⟨le_of_lt hla, hc⟩
      have s1 : x * y < 0 := mul_neg_of_pos_of_neg (by linarith) hy
      have s2 : 0 < ha * hb := mul_pos (by linarith) hhb
      calc x * y ≤ ha * hb := by linarith
        _ ≤ max (ha * hb) (la * lb) := le_max_left _ _

/-- Helper: enclosure of interval multiplication for bounded operands,
following the five sign cases of `operator*`. -/
theorem mul_enclosure (M : RndDown) (a b : ival) (x y : ℚ)
    (hba : isbounded a = true) (hbb : isbounded b = true)
    (hx : contains a (Fp.fin x) = true) (hy : contains b (Fp.fin y) = true) :
    contains (ival_mul M a b) (Fp.fin (x * y)) = true := by
  obtain ⟨la, ua, hla, hua, hm1, hm2⟩ := bounded_mem a x hba hx
  obtain ⟨lb, ub, hlb, hub, hm3, hm4⟩ := bounded_mem b y hbb hy
  simp only [ival_mul, lo, hi, hla, hua, hlb, hub, fneg, fle, fmul]
  split_ifs with c1 c2 c3 c4
  · -- both operands non-negative
    simp only [Bool.and_eq_true, decide_eq_true_eq] at c1
    simp only [contains, lo, hi, Bool.and_eq_true]
    constructor
    · apply rnd_fle M
      have s1 : la * lb ≤ x * lb := mul_le_mul_of_nonneg_right hm1 c1.2
      have s2 : x * lb ≤ x * y := mul_le_mul_of_nonneg_left hm3 (le_trans c1.1 hm1)
      linarith
    · apply rnd_fneg_fle M
      have hx0 : 0 ≤ x := le_trans c1.1 hm1
      have hub0 : 0 ≤ -ub := le_trans (le_trans c1.2 hm3) hm4
      have s1 : x * y ≤ x * (-ub) := mul_le_mul_of_nonneg_left hm4 hx0
      have s2 : x * (-ub) ≤ (-ua) * (-ub) := mul_le_mul_of_nonneg_right hm2 hub0
      nlinarith [s1, s2]
  · -- both operands non-positive
    simp only [Bool.and_eq_true, decide_eq_true_eq] at c2
    simp only [contains, lo, hi, Bool.and_eq_true]
    have hx0 : x ≤ 0 := le_trans hm2 c2.1
    have hy0 : y ≤ 0 := le_trans hm4 c2.2
    constructor
    · apply rnd_fle M
      have s1 : x * (-ub) ≤ x * y := mul_le_mul_of_nonpos_left hm4 hx0
      have s2 : (-ua) * (-ub) ≤ x * (-ub) := mul_le_mul_of_nonpos_right hm2 c2.2
      nlinarith [s1, s2]
    · apply rnd_fneg_fle M
      have hla0 : la ≤ 0 := le_trans hm1 hx0
      have s1 : x * y ≤ la * y := mul_le_mul_of_nonpos_right hm1 hy0
      have s2 : la * y ≤ la * lb := mul_le_mul_of_nonpos_left hm3 hla0
      nlinarith [s1, s2]
  · -- `a` non-positive, `b` non-negative
    simp only [Bool.and_eq_true, decide_eq_true_eq] at c3
    simp only [contains, lo, hi, Bool.and_eq_true]
    have hx0 : x ≤ 0 := le_trans hm2 c3.1
    have hy0 : 0 ≤ y := le_trans c3.2 hm3
    have hub0 : 0 ≤ -ub := le_trans hy0 hm4
    constructor
    · apply rnd_fle M
      have s1 : x * (-ub) ≤ x * y := mul_le_mul_of_nonpos_left hm4 hx0
      have s2 : la * (-ub) ≤ x * (-ub) := mul_le_mul_of_nonneg_right hm1 hub0
      nlinarith [s1, s2]
    · apply rnd_fneg_fle M
      have s1 : x * y ≤ x * lb := mul_le_mul_of_nonpos_left hm3 hx0
      have s2 : x * lb ≤ (-ua) * lb := mul_le_mul_of_nonneg_right hm2 c3.2
      nlinarith [s1, s2]
  · -- `a` non-negative, `b` non-positive
    simp only [Bool.and_eq_true, decide_eq_true_eq] at c4
    simp only [contains, lo, hi, Bool.and_eq_true]
    have hx0 : 0 ≤ x := le_trans c4.1 hm1
    have hy0 : y ≤ 0 := le_trans hm4 c4.2
    have hua0 : 0 ≤ -ua := le_trans hx0 hm2
    constructor
    · apply rnd_fle M
      have s1 : (-ua) * lb ≤ (-ua) * y := mul_le_mul_of_nonneg_left hm3 hua0
      have s2 : (-ua) * y ≤ x * y := mul_le_mul_of_nonpos_right hm2 hy0
      nlinarith [s1, s2]
    · apply rnd_fneg_fle M
      have s1 : x * y ≤ la * y := mul_le_mul_of_nonpos_right hm1 hy0
      have s2 : la * y ≤ la * (-ub) := mul_le_mul_of_nonneg_left hm4 c4.1
      nlinarith [s1, s2]
  · -- at least one operand straddles zero
    have hn1 : ¬(0 ≤ la ∧ 0 ≤ lb) := by
      intro hcon
      exact c1 (by rw [decide_eq_true hcon.1, decide_eq_true hcon.2]; rfl)
    have hn2 : ¬(-ua ≤ 0 ∧ -ub ≤ 0) := by
      intro hcon
      exact c2 (by rw [decide_eq_true hcon.1, decide_eq_true hcon.2]; rfl)
    have hn3 : ¬(-ua ≤ 0 ∧ 0 ≤ lb) := by
      intro hcon
      exact c3 (by rw [decide_eq_true hcon.1, decide_eq_true hcon.2]; rfl)
    have hn4 : ¬(0 ≤ la ∧ -ub ≤ 0) := by
      intro hcon
      exact c4 (by rw [decide_eq_true hcon.1, decide_eq_true hcon.2]; rfl)
    simp only [contains, lo, hi, Bool.and_eq_true]
    constructor
    · apply fmin_rnd_fle M
      exact qmul_general_lo la (-ua) lb (-ub) x y hm1 hm2 hm3 hm4 hn1 hn2 hn3
    · apply fmin_rnd_fneg_fle M
      have hmax := qmul_general_hi la (-ua) lb (-ub) x y hm1 hm2 hm3 hm4 hn1 hn2 hn3 hn4
      have e1 : -ua * ub = -(-ua * -ub) := by ring
      have e2 : la * -lb = -(la * lb) := by ring
      rw [e1, e2, min_neg_neg, neg_neg]
      exact hmax

/-- Helper: the concrete product `[1,2] * [-3,-1] = [-6,-1]` under any
round-down model (both written bounds are representable small integers). -/
theorem mul_example (M : RndDown) :
    ival_mul M ⟨Fp.fin 1, Fp.fin (-2)⟩ ⟨Fp.fin (-3), Fp.fin 1⟩ =
      ⟨Fp.fin (-6), Fp.fin 1⟩ := by
  have r1 : M.rnd (-6) = Fp.fin (-6) :=
    M.rnd_exact (-6) ⟨-6, 0, by decide, by decide, by decide, by norm_num⟩
  have r2 : M.rnd 1 = Fp.fin 1 :=
    M.rnd_exact 1 ⟨1, 0, by decide, by decide, by decide, by norm_num⟩
  norm_num [ival_mul, fmul, fneg, lo, hi, fle]
  exact ⟨r1, r2⟩

/-- Claim C1 counterexample: for the non-empty intervals `a = [1, +inf)`
and `b = [0, 0]` with `1` contained in `a` and `0` contained in `b`, the
product `a * b` computes `+inf * -0 = NaN` for its upper stored field, and
the true product `1 * 0 = 0` is NOT contained in `a * b`: the enclosure
claim fails for unbounded operands. -/
theorem C1_counterexample :
    contains (⟨Fp.fin 1, Fp.ninf⟩ : ival) (Fp.fin 1) = true ∧
    contains (⟨Fp.fin 0, Fp.fin 0⟩ : ival) (Fp.fin 0) = true ∧
    isempty (⟨Fp.fin 1, Fp.ninf⟩ : ival) = false ∧
    isempty (⟨Fp.fin 0, Fp.fin 0⟩ : ival) = false ∧
    isNaI (⟨Fp.fin 1, Fp.ninf⟩ : ival) = false ∧
    ival_mul rndId ⟨Fp.fin 1, Fp.ninf⟩ ⟨Fp.fin 0, Fp.fin 0⟩ = ⟨Fp.fin 0, Fp.nan⟩ ∧
    contains (ival_mul rndId ⟨Fp.fin 1, Fp.ninf⟩ ⟨Fp.fin 0, Fp.fin 0⟩)
      (Fp.fin (1 * 0)) = false := by
  refine ⟨by decide, by decide, by decide, by decide, by decide, ?_, ?_⟩
  · norm_num [ival_mul, fmul, fneg, lo, hi, fle, rndId]
  · norm_num [ival_mul, fmul, fneg, lo, hi, fle, rndId, contains]

/-- Claim C1 as amended: under an active round-toward-negative-infinity
mode, the sum enclosure holds for all intervals containing the exact
operands; the product enclosure holds provided both operands are bounded
(for an unbounded operand times a zero endpoint the code computes
`0 * inf = NaN` and containment fails, see the counterexample); and
`Interval([1,2]) * Interval([-3,-1]) = [-6,-1]` exactly. -/
theorem C1_arith_enclosure :
    (∀ (M : RndDown) (a b : ival) (x y : ℚ),
      contains a (Fp.fin x) = true → contains b (Fp.fin y) = true →
      contains (ival_add M a b) (Fp.fin (x + y)) = true) ∧
    (∀ (M : RndDown) (a b : ival) (x y : ℚ),
      isbounded a = true → isbounded b = true →
      contains a (Fp.fin x) = true → contains b (Fp.fin y) = true →
      contains (ival_mul M a b) (Fp.fin (x * y)) = true) ∧
    (∀ M : RndDown,
      ival_mul M ⟨Fp.fin 1, Fp.fin (-2)⟩ ⟨Fp.fin (-3), Fp.fin 1⟩ =
        ⟨Fp.fin (-6), Fp.fin 1⟩) :=
  ⟨fun M a b x y hx hy => add_enclosure M a b x y hx hy,
   fun M a b x y h1 h2 hx hy => mul_enclosure M a b x y h1 h2 hx hy,
   mul_example⟩

/-- Closed witness for claim C1: sum and product enclosure at
`a = [1,2]`, `b = [3,4]`, `x = 1`, `y = 3` resp. `x = 2`, `y = 3`, plus
the concrete product example. -/
theorem C1_arith_enclosure_witness :
    contains (ival_add rndId ⟨Fp.fin 1, Fp.fin (-2)⟩ ⟨Fp.fin 3, Fp.fin (-4)⟩)
      (Fp.fin (1 + 3)) = true ∧
    contains (ival_mul rndId ⟨Fp.fin 1, Fp.fin (-2)⟩ ⟨Fp.fin 3, Fp.fin (-4)⟩)
      (Fp.fin (2 * 3)) = true ∧
    ival_mul rndId ⟨Fp.fin 1, Fp.fin (-2)⟩ ⟨Fp.fin (-3), Fp.fin 1⟩ =
      ⟨Fp.fin (-6), Fp.fin 1⟩ :=
  ⟨C1_arith_enclosure.1 rndId ⟨Fp.fin 1, Fp.fin (-2)⟩ ⟨Fp.fin 3, Fp.fin (-4)⟩ 1 3
      (by decide) (by decide),
   C1_arith_enclosure.2.1 rndId ⟨Fp.fin 1, Fp.fin (-2)⟩ ⟨Fp.fin 3, Fp.fin (-4)⟩ 2 3
      (by decide) (by decide) (by decide) (by decide),
   C1_arith_enclosure.2.2 rndId⟩

end Kay
